import Mathlib

/-
Verification of the hg_branch module (src/modules/hg_branch.rs).

The module has three parts:
  * a directory-ascent search for a `.hg` marker directory (find_hg_directory),
  * a two-source branch-name resolver (get_hg_current_bookmark falling back
    to get_hg_commit_name),
  * a grapheme-cluster-aware truncation of the branch label (the inline code
    of `module`, lines 29-49, together with get_graphemes / graphemes_len).

The embedding below models
  * a string, for the truncation code, as its list of grapheme clusters
    (the Rust code segments with unicode_segmentation and only ever
    manipulates whole clusters),
  * a string, for the resolver code, as its list of characters,
  * paths as a flag (absolute or not) plus the list of components, which
    matches Rust `PathBuf` equality and `pop`/`push` on the paths involved,
  * the filesystem as a function from paths to read results, where `none`
    stands for an `Err` result,
  * the unbounded ascent loop of find_hg_directory as a fuel-indexed
    function: a `none` result means the loop has not finished within the
    given number of iterations.
-/

namespace HgBranch

/-- A user-perceived character (grapheme cluster).  The Rust code segments
strings with `unicode_segmentation`; the embedding works directly with the
list of grapheme clusters of a string. -/
abbrev Grapheme := String

/-- Embeds `get_graphemes` (hg_branch.rs lines 107-112): keep the first
`length` grapheme clusters of the text. -/
def get_graphemes (text : List Grapheme) (length : Nat) : List Grapheme :=
  text.take length

/-- Embeds `graphemes_len` (hg_branch.rs lines 114-116): the number of
grapheme clusters of the text. -/
def graphemes_len (text : List Grapheme) : Nat :=
  text.length

/-- `std::usize::MAX` on a 64-bit target, the sentinel the module uses for
"unbounded" truncation.  Every Rust string has at most this many grapheme
clusters, since its byte length is bounded by `usize::MAX`. -/
def USIZE_MAX : Nat := 2 ^ 64 - 1

/-- Embeds lines 29-37 of `module`: normalise the configured
`truncation_length` (an `i64`).  The first component is the effective
length `len`; the second records whether `log::warn!` fired. -/
def compute_len (truncation_length : Int) : Nat × Bool :=
  if truncation_length ≤ 0 then (USIZE_MAX, true)
  else (truncation_length.toNat, false)

/-- Embeds lines 42-49 of `module`: take the first `len` grapheme clusters
of the branch name and, exactly when `len < graphemes_len branch_name`,
append the first grapheme cluster of the truncation symbol. -/
def truncate (branch_name : List Grapheme) (len : Nat)
    (truncation_symbol : List Grapheme) : List Grapheme :=
  let truncated_graphemes := get_graphemes branch_name len
  if len < graphemes_len branch_name then
    let ts := get_graphemes truncation_symbol 1
    truncated_graphemes ++ ts
  else
    truncated_graphemes

/-- Embeds lines 29-49 of `module` end to end: normalise the configured
length, then truncate. -/
def render_branch_name (branch_name : List Grapheme) (truncation_length : Int)
    (truncation_symbol : List Grapheme) : List Grapheme :=
  truncate branch_name (compute_len truncation_length).fst truncation_symbol

/-- A path: whether it is absolute, and its list of components.  Matches
Rust `PathBuf` equality on the paths the module manipulates; in particular
the root `/` (absolute, no components) differs from the empty path. -/
structure PathBuf where
  absolute : Bool
  components : List String
deriving DecidableEq

/-- `PathBuf::new()`: the empty relative path. -/
def PathBuf.new : PathBuf := ⟨false, []⟩

/-- `PathBuf::push` / `Path::join` with a single file name. -/
def PathBuf.push (p : PathBuf) (name : String) : PathBuf :=
  ⟨p.absolute, p.components ++ [name]⟩

/-- `PathBuf::pop`: truncate to the parent.  When the path has no parent
(the root `/` or the empty path) Rust's `pop` returns `false` and leaves
the path unchanged. -/
def PathBuf.pop (p : PathBuf) : PathBuf :=
  match p.components with
  | [] => p
  | _ :: _ => ⟨p.absolute, p.components.dropLast⟩

/-- One entry yielded by `read_dir`: its file name and the result of
`entry.file_type()` (`none` models an `Err`, `some b` a file type with
`is_dir() = b`). -/
structure DirEntry where
  name : String
  file_type : Option Bool
deriving DecidableEq

/-- The filesystem as seen by `find_hg_directory`: `read_dir` yields
`none` for an `Err` result, otherwise the list of entries, where an inner
`none` models an entry the iterator yields as `Err`. -/
structure FileSystem where
  read_dir : PathBuf → Option (List (Option DirEntry))

/-- Outcome of the `for direntry in read_dir` loop body of
`find_hg_directory` over one directory's entries. -/
inductive ScanResult where
  | err : ScanResult
  | found : PathBuf → ScanResult
  | notFound : ScanResult
deriving DecidableEq

/-- Embeds the `for` loop of `find_hg_directory` (lines 68-83): walk the
entries in order; an `Err` entry or an `Err` file type aborts with `err`;
a directory entry named `.hg` yields `found entry.path()`; otherwise the
loop falls through with `notFound`. -/
def scan_entries (dir : PathBuf) : List (Option DirEntry) → ScanResult
  | [] => ScanResult.notFound
  | none :: _ => ScanResult.err
  | some entry :: rest =>
    match entry.file_type with
    | none => ScanResult.err
    | some is_dir =>
      if is_dir = true ∧ entry.name = ".hg" then ScanResult.found (dir.push entry.name)
      else scan_entries dir rest

/-- Embeds `find_hg_directory` (lines 61-86) as a fuel-indexed function.
`none` means the `while` loop performed `fuel` iterations without
finishing; `some r` means the Rust function returns `r`. -/
def find_hg_directory (fs : FileSystem) : Nat → PathBuf → Option (Option PathBuf)
  | 0, _ => none
  | fuel + 1, current_path =>
    if current_path = PathBuf.new then some none
    else
      match fs.read_dir current_path with
      | none => some none
      | some entries =>
        match scan_entries current_path entries with
        | ScanResult.err => some none
        | ScanResult.found hg => some (some hg)
        | ScanResult.notFound => find_hg_directory fs fuel current_path.pop

/-- `find_hg_directory` instrumented with the number of directories on
which `read_dir` was invoked (attempted enumerations).  The first
component of the result agrees with `find_hg_directory`. -/
def find_hg_directory_scans (fs : FileSystem) :
    Nat → PathBuf → Option (Option PathBuf × Nat)
  | 0, _ => none
  | fuel + 1, current_path =>
    if current_path = PathBuf.new then some (none, 0)
    else
      match fs.read_dir current_path with
      | none => some (none, 1)
      | some entries =>
        match scan_entries current_path entries with
        | ScanResult.err => some (none, 1)
        | ScanResult.found hg => some (some hg, 1)
        | ScanResult.notFound =>
          match find_hg_directory_scans fs fuel current_path.pop with
          | none => none
          | some (res, n) => some (res, n + 1)

/-- The ancestor of a path at a given depth: iterated `pop`. -/
def ancestor (p : PathBuf) : Nat → PathBuf
  | 0 => p
  | i + 1 => ancestor p.pop i

/-- The entry is well-formed: the iterator yielded `Ok` and
`entry.file_type()` succeeded. -/
def entry_ok : Option DirEntry → Bool
  | some d => d.file_type.isSome
  | none => false

/-- The entry is a directory named `.hg`. -/
def entry_is_hg : Option DirEntry → Bool
  | some d => (d.file_type == some true) && (d.name == ".hg")
  | none => false

/-- The entry makes the loop abort: the iterator yielded `Err`, or
`entry.file_type()` failed. -/
def entry_bad : Option DirEntry → Bool
  | some d => d.file_type.isNone
  | none => true

/-- The directory enumerates cleanly and contains no `.hg` directory. -/
def dir_without_hg (fs : FileSystem) (p : PathBuf) : Prop :=
  ∃ entries, fs.read_dir p = some entries ∧
    entries.all (fun e => entry_ok e && !entry_is_hg e) = true

/-- The directory enumerates cleanly and contains a `.hg` directory. -/
def dir_with_hg (fs : FileSystem) (p : PathBuf) : Prop :=
  ∃ entries, fs.read_dir p = some entries ∧
    entries.all entry_ok = true ∧ entries.any entry_is_hg = true

/-- Enumerating the directory fails outright. -/
def dir_unreadable (fs : FileSystem) (p : PathBuf) : Prop :=
  fs.read_dir p = none

/-- Enumerating the directory starts cleanly but yields a failing entry
before any `.hg` entry. -/
def dir_entry_error (fs : FileSystem) (p : PathBuf) : Prop :=
  ∃ good bad rest, fs.read_dir p = some (good ++ bad :: rest) ∧
    good.all (fun e => entry_ok e && !entry_is_hg e) = true ∧
    entry_bad bad = true

/-- Rust `char::is_whitespace`: the Unicode `White_Space` property. -/
def is_whitespace (c : Char) : Bool :=
  c = '\t' || c = '\n' || c = '\u000B' || c = '\u000C' || c = '\r' || c = ' ' ||
  c = '\u0085' || c = '\u00A0' || c = '\u1680' ||
  ('\u2000' ≤ c && c ≤ '\u200A') || c = '\u2028' || c = '\u2029' ||
  c = '\u202F' || c = '\u205F' || c = '\u3000'

/-- Rust `str::trim`: drop whitespace from both ends. -/
def rust_trim (s : List Char) : List Char :=
  ((s.dropWhile is_whitespace).reverse.dropWhile is_whitespace).reverse

/-- Rust `str::split("\n")` collected into a vector: always yields at
least one piece, and splitting the empty string yields `[[]]`. -/
def split_newline : List Char → List (List Char)
  | [] => [[]]
  | c :: rest =>
    if c = '\n' then [] :: split_newline rest
    else
      match split_newline rest with
      | [] => [[c]]
      | line :: lines => (c :: line) :: lines

/-- The files read by the resolver: `read_to_string` yields `none` for an
`Err` result and `some` of the character list of the contents otherwise. -/
structure Files where
  read_to_string : PathBuf → Option (List Char)

/-- The `namejournal` variable of `get_hg_commit_name` (lines 90-92):
the journal contents trimmed as a whole, or the empty string when the
read fails. -/
def journal_content (files : Files) (hg_path : PathBuf) : List Char :=
  match files.read_to_string (hg_path.push "namejournal") with
  | some s => rust_trim s
  | none => []

/-- The `lines` vector of `get_hg_commit_name` (line 93). -/
def journal_lines (files : Files) (hg_path : PathBuf) : List (List Char) :=
  split_newline (journal_content files hg_path)

/-- Embeds `get_hg_commit_name` (lines 88-99): the last line of the
trimmed journal, or the empty string when there is no last line. -/
def get_hg_commit_name (files : Files) (hg_path : PathBuf) : List Char :=
  match (journal_lines files hg_path).getLast? with
  | some line => line
  | none => []

/-- Embeds `get_hg_current_bookmark` (lines 101-105): the trimmed
contents of `bookmarks.current`, when readable. -/
def get_hg_current_bookmark (files : Files) (hg_path : PathBuf) : Option (List Char) :=
  (files.read_to_string (hg_path.push "bookmarks.current")).map rust_trim

/-- Embeds line 39-40 of `module`: the bookmark when readable, otherwise
the journal fallback. -/
def resolve_branch_name (files : Files) (hg_path : PathBuf) : List Char :=
  match get_hg_current_bookmark files hg_path with
  | some name => name
  | none => get_hg_commit_name files hg_path

/-! Concrete fixtures used by the closed theorems below. -/

/-- A filesystem whose root is readable and empty; every other path is
unreadable.  No directory anywhere contains a `.hg` child. -/
def fs_empty_root : FileSystem :=
  ⟨fun p => if p = (⟨true, []⟩ : PathBuf) then some [] else none⟩

/-- The absolute path `/a`. -/
def start_under_root : PathBuf := ⟨true, ["a"]⟩

/-- `/a` is readable with one plain non-directory entry; its parent `/`
is unreadable. -/
def fs_bad_parent : FileSystem :=
  ⟨fun p => if p = start_under_root then some [some ⟨"x", some false⟩] else none⟩

/-- `/a` is readable with one plain non-directory entry; its parent `/`
contains a `.hg` directory. -/
def fs_hg_parent : FileSystem :=
  ⟨fun p =>
    if p = start_under_root then some [some ⟨"x", some false⟩]
    else if p = (⟨true, []⟩ : PathBuf) then some [some ⟨".hg", some true⟩]
    else none⟩

/-- The repository marker directory `/repo/.hg`. -/
def hg_repo_path : PathBuf := ⟨true, ["repo", ".hg"]⟩

/-- No `bookmarks.current`; the journal reads as `"a\n b"`, whose last
line starts with a space that whole-string trimming does not remove. -/
def files_journal_indent : Files :=
  ⟨fun p =>
    if p = hg_repo_path.push "namejournal" then some ['a', '\n', ' ', 'b']
    else none⟩

/-- Every read fails. -/
def files_absent : Files := ⟨fun _ => none⟩

/-- `bookmarks.current` reads as `" fx\n"`; the journal is unreadable. -/
def files_bookmark_only : Files :=
  ⟨fun p =>
    if p = hg_repo_path.push "bookmarks.current" then some [' ', 'f', 'x', '\n']
    else none⟩

/-- `bookmarks.current` reads as `" fx\n"`; the journal reads as `"z"`. -/
def files_bookmark_and_journal : Files :=
  ⟨fun p =>
    if p = hg_repo_path.push "bookmarks.current" then some [' ', 'f', 'x', '\n']
    else if p = hg_repo_path.push "namejournal" then some ['z']
    else none⟩

/-! Helper lemmas about the truncation code. -/

/-- When the label fits, lines 42-49 return it unchanged. -/
theorem truncate_of_count_le (L marker : List Grapheme) (n : Nat)
    (h : graphemes_len L ≤ n) : truncate L n marker = L := by
  unfold truncate graphemes_len at *
  rw [if_neg (by omega)]
  exact List.take_of_length_le h

/-- When the label overflows, lines 42-49 return the first `n` clusters
followed by the first cluster of the symbol. -/
theorem truncate_of_lt_count (L marker : List Grapheme) (n : Nat)
    (h : n < graphemes_len L) :
    truncate L n marker = get_graphemes L n ++ get_graphemes marker 1 := by
  unfold truncate
  rw [if_pos h]

/-- `render_branch_name` keeps any label that fits the effective length. -/
theorem render_of_count_le (X marker : List Grapheme) (M : Int)
    (h : graphemes_len X ≤ (compute_len M).fst) :
    render_branch_name X M marker = X :=
  truncate_of_count_le X marker _ h

/-- A non-positive configured length yields the unbounded sentinel. -/
theorem compute_len_nonpos (M : Int) (h : M ≤ 0) :
    compute_len M = (USIZE_MAX, true) := by
  unfold compute_len
  rw [if_pos h]

/-- A positive configured length is used as is. -/
theorem compute_len_pos (M : Int) (h : ¬ M ≤ 0) :
    compute_len M = (M.toNat, false) := by
  unfold compute_len
  rw [if_neg h]

/-! The claims about the truncation code. -/

/-- Claim C1: for every label, every positive maxLength `M` and every
marker: a label of at most `M` grapheme clusters is returned unchanged; a
longer label is cut to its first `M` clusters followed by exactly one
cluster of the marker — and by no cluster when the marker is empty. -/
theorem c1_truncate_spec (L marker : List Grapheme) (M : Nat) (hM : 0 < M) :
    (graphemes_len L ≤ M → truncate L M marker = L) ∧
    (M < graphemes_len L →
      truncate L M marker = get_graphemes L M ++ get_graphemes marker 1 ∧
      graphemes_len (get_graphemes marker 1) = min 1 (graphemes_len marker) ∧
      (marker = [] → truncate L M marker = get_graphemes L M)) := by
  refine ⟨fun h => truncate_of_count_le L marker M h,
    fun h => ⟨truncate_of_lt_count L marker M h, ?_, fun hm => ?_⟩⟩
  · simp [get_graphemes, graphemes_len]
  · subst hm
    rw [truncate_of_lt_count L [] M h]
    simp [get_graphemes]

/-- Witness for C1 at a concrete input. -/
theorem c1_truncate_spec_witness :
    truncate ["f", "e", "a", "t"] 2 ["…", "x"] = ["f", "e", "…"] := by
  have h := c1_truncate_spec ["f", "e", "a", "t"] ["…", "x"] 2 (by decide)
  rw [(h.2 (by decide)).1]
  decide

/-- Claim C7: a zero or negative truncation length is treated as unbounded
— the label is returned unchanged — and the warning fires; the function is
total, so there is no hard failure.  The grapheme-count bound holds for
every Rust string, whose byte length is at most `usize::MAX`. -/
theorem c7_nonpositive_unbounded (L marker : List Grapheme) (tl : Int)
    (htl : tl ≤ 0) (hL : graphemes_len L ≤ USIZE_MAX) :
    render_branch_name L tl marker = L ∧ (compute_len tl).snd = true := by
  unfold render_branch_name
  rw [compute_len_nonpos tl htl]
  exact ⟨truncate_of_count_le L marker USIZE_MAX hL, rfl⟩

/-- Witness for C7 at a concrete input. -/
theorem c7_nonpositive_unbounded_witness :
    render_branch_name ["a", "b"] (-3) ["…"] = ["a", "b"] ∧
    (compute_len (-3)).snd = true :=
  c7_nonpositive_unbounded ["a", "b"] ["…"] (-3) (by decide) (by decide)

/-- Claim C8: for positive maxLength the rendered label has at most
`maxLength + 1` grapheme clusters, and the truncated-plus-marker form is
produced exactly when the label exceeds maxLength (or vacuously when the
marker contributes no cluster, appending which changes nothing). -/
theorem c8_rendered_invariant (L marker : List Grapheme) (M : Nat) (hM : 0 < M) :
    graphemes_len (truncate L M marker) ≤ M + 1 ∧
    (truncate L M marker = get_graphemes L M ++ get_graphemes marker 1 ↔
      M < graphemes_len L ∨ get_graphemes marker 1 = []) := by
  refine ⟨?_, ?_, ?_⟩
  · by_cases h : M < graphemes_len L
    · rw [truncate_of_lt_count L marker M h]
      simp only [graphemes_len] at h ⊢
      have h1 : (get_graphemes L M).length = M := by
        simp only [get_graphemes, List.length_take]
        omega
      have h2 : (get_graphemes marker 1).length ≤ 1 := by
        simp only [get_graphemes, List.length_take]
        exact min_le_left _ _
      rw [List.length_append]
      omega
    · rw [truncate_of_count_le L marker M (by omega)]
      omega
  · intro heq
    by_cases h : M < graphemes_len L
    · exact Or.inl h
    · right
      simp only [graphemes_len] at h
      rw [truncate_of_count_le L marker M (by simp only [graphemes_len]; omega)] at heq
      simp only [get_graphemes] at heq ⊢
      rw [List.take_of_length_le (by omega)] at heq
      have hlen := congrArg List.length heq
      rw [List.length_append] at hlen
      have h0 : (List.take 1 marker).length = 0 := by omega
      rw [List.length_eq_zero] at h0
      exact h0
  · intro h
    rcases h with h | h
    · exact truncate_of_lt_count L marker M h
    · by_cases hlt : M < graphemes_len L
      · exact truncate_of_lt_count L marker M hlt
      · rw [truncate_of_count_le L marker M (by omega), h, List.append_nil]
        unfold get_graphemes graphemes_len at *
        exact (List.take_of_length_le (by omega)).symm

/-- Witness for C8 at a concrete input. -/
theorem c8_rendered_invariant_witness :
    graphemes_len (truncate ["a", "b", "c"] 1 ["…"]) ≤ 1 + 1 ∧
    (truncate ["a", "b", "c"] 1 ["…"] =
        get_graphemes ["a", "b", "c"] 1 ++ get_graphemes ["…"] 1 ↔
      1 < graphemes_len ["a", "b", "c"] ∨ get_graphemes ["…"] 1 = []) :=
  c8_rendered_invariant ["a", "b", "c"] ["…"] 1 (by decide)

/-- Claim C9: truncation is idempotent whenever the configured length is
unbounded (non-positive) or the once-truncated result, marker included,
fits within the length. -/
theorem c9_truncate_idempotent (L marker : List Grapheme) (M : Int)
    (hL : graphemes_len L ≤ USIZE_MAX)
    (h : M ≤ 0 ∨ graphemes_len (render_branch_name L M marker) ≤ M.toNat) :
    render_branch_name (render_branch_name L M marker) M marker =
      render_branch_name L M marker := by
  by_cases hM : M ≤ 0
  · have hfst : (compute_len M).fst = USIZE_MAX := by
      rw [compute_len_nonpos M hM]
    have h1 : render_branch_name L M marker = L :=
      render_of_count_le L marker M (by rw [hfst]; exact hL)
    rw [h1]
    exact h1
  · have h2 : graphemes_len (render_branch_name L M marker) ≤ M.toNat :=
      h.resolve_left hM
    have hfst : (compute_len M).fst = M.toNat := by
      rw [compute_len_pos M hM]
    exact render_of_count_le (render_branch_name L M marker) marker M
      (by rw [hfst]; exact h2)

/-- Witness for C9 at a concrete input. -/
theorem c9_truncate_idempotent_witness :
    render_branch_name (render_branch_name ["a", "b"] 5 ["…"]) 5 ["…"] =
      render_branch_name ["a", "b"] 5 ["…"] :=
  c9_truncate_idempotent ["a", "b"] ["…"] 5 (by decide) (Or.inr (by decide))

/-! Helper lemmas about the locator. -/

/-- The instrumented locator agrees with the plain one on the result. -/
theorem find_hg_directory_scans_fst (fs : FileSystem) :
    ∀ (fuel : Nat) (p : PathBuf),
      find_hg_directory fs fuel p =
        (find_hg_directory_scans fs fuel p).map Prod.fst := by
  intro fuel
  induction fuel with
  | zero => intro p; rfl
  | succ n ih =>
    intro p
    simp only [find_hg_directory, find_hg_directory_scans]
    by_cases hp : p = PathBuf.new
    · rw [if_pos hp, if_pos hp]
      rfl
    · rw [if_neg hp, if_neg hp]
      cases hread : fs.read_dir p with
      | none => rfl
      | some entries =>
        cases hscan : scan_entries p entries with
        | err => simp only [hscan]; rfl
        | found hg => simp only [hscan]; rfl
        | notFound =>
          simp only [hscan]
          rw [ih p.pop]
          cases find_hg_directory_scans fs n p.pop with
          | none => rfl
          | some r => cases r; rfl

/-- A list of well-formed non-`.hg` entries scans to `notFound`. -/
theorem scan_entries_of_all_miss (dir : PathBuf) :
    ∀ entries : List (Option DirEntry),
      entries.all (fun e => entry_ok e && !entry_is_hg e) = true →
      scan_entries dir entries = ScanResult.notFound := by
  intro entries
  induction entries with
  | nil => intro _; rfl
  | cons e rest ih =>
    intro h
    rw [List.all_cons, Bool.and_eq_true, Bool.and_eq_true] at h
    obtain ⟨⟨hok, hhg⟩, hrest⟩ := h
    cases e with
    | none => simp [entry_ok] at hok
    | some d =>
      cases hft : d.file_type with
      | none => simp [entry_ok, hft] at hok
      | some b =>
        simp only [scan_entries, hft]
        rw [if_neg]
        · exact ih hrest
        · rintro ⟨hb, hname⟩
          simp [entry_is_hg, hft, hb, hname] at hhg

/-- A list of well-formed entries one of which is a `.hg` directory scans
to `found (dir.push ".hg")`. -/
theorem scan_entries_of_any_hg (dir : PathBuf) :
    ∀ entries : List (Option DirEntry),
      entries.all entry_ok = true →
      entries.any entry_is_hg = true →
      scan_entries dir entries = ScanResult.found (dir.push ".hg") := by
  intro entries
  induction entries with
  | nil => intro _ hany; simp at hany
  | cons e rest ih =>
    intro hall hany
    rw [List.all_cons, Bool.and_eq_true] at hall
    obtain ⟨hok, hrest⟩ := hall
    cases e with
    | none => simp [entry_ok] at hok
    | some d =>
      cases hft : d.file_type with
      | none => simp [entry_ok, hft] at hok
      | some b =>
        by_cases hcond : b = true ∧ d.name = ".hg"
        · obtain ⟨hb, hname⟩ := hcond
          simp only [scan_entries, hft]
          rw [if_pos ⟨hb, hname⟩, hname]
        · simp only [scan_entries, hft]
          rw [if_neg hcond]
          apply ih hrest
          rw [List.any_cons, Bool.or_eq_true] at hany
          rcases hany with hhd | htl
          · exfalso
            simp [entry_is_hg, hft] at hhd
            exact hcond hhd
          · exact htl

/-- A clean non-`.hg` stretch followed by a failing entry scans to `err`. -/
theorem scan_entries_of_bad (dir : PathBuf) :
    ∀ (good : List (Option DirEntry)) (bad : Option DirEntry)
      (rest : List (Option DirEntry)),
      good.all (fun e => entry_ok e && !entry_is_hg e) = true →
      entry_bad bad = true →
      scan_entries dir (good ++ bad :: rest) = ScanResult.err := by
  intro good
  induction good with
  | nil =>
    intro bad rest _ hbad
    cases bad with
    | none => rfl
    | some d =>
      cases hft : d.file_type with
      | none => simp only [List.nil_append, scan_entries, hft]
      | some b => simp [entry_bad, hft] at hbad
  | cons e g ih =>
    intro bad rest hgood hbad
    rw [List.all_cons, Bool.and_eq_true, Bool.and_eq_true] at hgood
    obtain ⟨⟨hok, hhg⟩, hg⟩ := hgood
    cases e with
    | none => simp [entry_ok] at hok
    | some d =>
      cases hft : d.file_type with
      | none => simp [entry_ok, hft] at hok
      | some b =>
        rw [List.cons_append]
        simp only [scan_entries, hft]
        rw [if_neg]
        · exact ih bad rest hg hbad
        · rintro ⟨hb, hname⟩
          simp [entry_is_hg, hft, hb, hname] at hhg

/-- Descending through `j` clean `.hg`-free ancestors adds `j` to the
scan count and continues from the ancestor at depth `j`. -/
theorem find_scans_descend (fs : FileSystem) :
    ∀ (j : Nat) (start : PathBuf) (fuel : Nat) (res : Option PathBuf) (n : Nat),
      j ≤ fuel →
      (∀ i, i < j → ancestor start i ≠ PathBuf.new) →
      (∀ i, i < j → dir_without_hg fs (ancestor start i)) →
      find_hg_directory_scans fs (fuel - j) (ancestor start j) = some (res, n) →
      find_hg_directory_scans fs fuel start = some (res, n + j) := by
  intro j
  induction j with
  | zero =>
    intro start fuel res n _ _ _ hfind
    simpa using hfind
  | succ j ih =>
    intro start fuel res n hj hne hclean hfind
    obtain ⟨f, rfl⟩ : ∃ f, fuel = f + 1 := ⟨fuel - 1, by omega⟩
    have hne0 : start ≠ PathBuf.new := hne 0 (by omega)
    have h0 := hclean 0 (by omega)
    simp only [ancestor] at h0
    obtain ⟨entries, hread, hall⟩ := h0
    have hfind' : find_hg_directory_scans fs (f - j) (ancestor start.pop j) =
        some (res, n) := by
      rw [Nat.succ_sub_succ] at hfind
      exact hfind
    have hrec := ih start.pop f res n (by omega)
      (fun i hi => hne (i + 1) (by omega))
      (fun i hi => hclean (i + 1) (by omega)) hfind'
    simp only [find_hg_directory_scans]
    rw [if_neg hne0]
    simp only [hread, scan_entries_of_all_miss start entries hall, hrec,
      Nat.add_succ]

/-! The claims about the locator. -/

/-- Claim C2 is refuted by the code: starting at the readable, empty,
`.hg`-free filesystem root `/`, the search never terminates — for every
amount of fuel the loop is still running — because `PathBuf::pop` at the
root leaves the path unchanged and the loop only stops at the empty path.
The claim (and the function's own doc comment) expects termination with
`None` here. -/
theorem c2_absolute_root_diverges :
    ∀ fuel : Nat,
      find_hg_directory fs_empty_root fuel (⟨true, []⟩ : PathBuf) = none := by
  intro fuel
  induction fuel with
  | zero => rfl
  | succ n ih =>
    simp only [find_hg_directory]
    rw [if_neg (by decide)]
    have hread : fs_empty_root.read_dir ⟨true, []⟩ = some [] := by decide
    rw [hread]
    exact ih

/-- Claim C5: if the ascent reaches, at depth `j`, a directory whose
enumeration fails or which yields a failing entry — the closer ancestors
enumerating cleanly and `.hg`-free — then the search returns `None` right
there, having attempted exactly `j + 1` enumerations, and never scans any
ancestor above the failing directory. -/
theorem c5_error_aborts (fs : FileSystem) (start : PathBuf) (j fuel : Nat)
    (hfuel : j < fuel)
    (hne : ∀ i, i ≤ j → ancestor start i ≠ PathBuf.new)
    (hclean : ∀ i, i < j → dir_without_hg fs (ancestor start i))
    (hbad : dir_unreadable fs (ancestor start j) ∨
      dir_entry_error fs (ancestor start j)) :
    find_hg_directory fs fuel start = some none ∧
    find_hg_directory_scans fs fuel start = some (none, j + 1) := by
  have hstep : find_hg_directory_scans fs (fuel - j) (ancestor start j) =
      some (none, 1) := by
    obtain ⟨m, hm⟩ : ∃ m, fuel - j = m + 1 := ⟨fuel - j - 1, by omega⟩
    rw [hm]
    simp only [find_hg_directory_scans]
    rw [if_neg (hne j le_rfl)]
    rcases hbad with hbad | ⟨good, bad, rest, hread, hgood, hb⟩
    · have hbad' : fs.read_dir (ancestor start j) = none := hbad
      simp only [hbad']
    · simp only [hread,
        scan_entries_of_bad (ancestor start j) good bad rest hgood hb]
  have hmain := find_scans_descend fs j start fuel none 1 (by omega)
    (fun i hi => hne i (by omega)) hclean hstep
  rw [Nat.add_comm 1 j] at hmain
  refine ⟨?_, hmain⟩
  rw [find_hg_directory_scans_fst fs fuel start, hmain]
  rfl

/-- Witness for C5 at a concrete input: `/a` scans cleanly, its parent
`/` is unreadable, and the search stops after those two enumerations. -/
theorem c5_error_aborts_witness :
    find_hg_directory fs_bad_parent 2 start_under_root = some none ∧
    find_hg_directory_scans fs_bad_parent 2 start_under_root = some (none, 2) := by
  refine c5_error_aborts fs_bad_parent start_under_root 1 2 (by decide) ?_ ?_ ?_
  · intro i hi
    interval_cases i <;> decide
  · intro i hi
    interval_cases i
    exact ⟨[some ⟨"x", some false⟩], by decide, by decide⟩
  · exact Or.inl rfl

/-- Claim C6: if the ancestor at depth `k` contains a `.hg` directory
while the closer ancestors enumerate cleanly without one, the search
returns that ancestor's `.hg` path after exactly `k + 1` enumerations. -/
theorem c6_found_at_depth (fs : FileSystem) (start : PathBuf) (k fuel : Nat)
    (hfuel : k < fuel)
    (hne : ∀ i, i ≤ k → ancestor start i ≠ PathBuf.new)
    (hmiss : ∀ i, i < k → dir_without_hg fs (ancestor start i))
    (hhit : dir_with_hg fs (ancestor start k)) :
    find_hg_directory fs fuel start =
      some (some ((ancestor start k).push ".hg")) ∧
    find_hg_directory_scans fs fuel start =
      some (some ((ancestor start k).push ".hg"), k + 1) := by
  obtain ⟨entries, hread, hall, hany⟩ := hhit
  have hstep : find_hg_directory_scans fs (fuel - k) (ancestor start k) =
      some (some ((ancestor start k).push ".hg"), 1) := by
    obtain ⟨m, hm⟩ : ∃ m, fuel - k = m + 1 := ⟨fuel - k - 1, by omega⟩
    rw [hm]
    simp only [find_hg_directory_scans]
    rw [if_neg (hne k le_rfl)]
    simp only [hread,
      scan_entries_of_any_hg (ancestor start k) entries hall hany]
  have hmain := find_scans_descend fs k start fuel
    (some ((ancestor start k).push ".hg")) 1 (by omega)
    (fun i hi => hne i (by omega)) hmiss hstep
  rw [Nat.add_comm 1 k] at hmain
  refine ⟨?_, hmain⟩
  rw [find_hg_directory_scans_fst fs fuel start, hmain]
  rfl

/-- Witness for C6 at a concrete input: `/a` scans cleanly without `.hg`,
its parent `/` contains `.hg`, and the search returns `/.hg` after two
enumerations. -/
theorem c6_found_at_depth_witness :
    find_hg_directory fs_hg_parent 2 start_under_root =
      some (some ((ancestor start_under_root 1).push ".hg")) ∧
    find_hg_directory_scans fs_hg_parent 2 start_under_root =
      some (some ((ancestor start_under_root 1).push ".hg"), 2) := by
  refine c6_found_at_depth fs_hg_parent start_under_root 1 2 (by decide) ?_ ?_ ?_
  · intro i hi
    interval_cases i <;> decide
  · intro i hi
    interval_cases i
    exact ⟨[some ⟨"x", some false⟩], by decide, by decide⟩
  · exact ⟨[some ⟨".hg", some true⟩], by decide, by decide, by decide⟩

/-! Helper lemmas about the resolver. -/

/-- `getLast?` ignores the head when the tail is nonempty. -/
theorem getLast?_cons_of_ne {α : Type*} (a : α) (l : List α) (h : l ≠ []) :
    (a :: l).getLast? = l.getLast? := by
  cases l with
  | nil => exact absurd rfl h
  | cons b t => exact List.getLast?_cons_cons

/-- `split_newline` never returns the empty list: Rust `split` always
yields at least one piece. -/
theorem split_newline_ne_nil (s : List Char) : split_newline s ≠ [] := by
  cases s with
  | nil => simp [split_newline]
  | cons c rest =>
    simp only [split_newline]
    by_cases hc : c = '\n'
    · simp [hc]
    · rw [if_neg hc]
      cases split_newline rest with
      | nil => simp
      | cons l ls => simp

/-- The last piece of `split_newline` ends exactly where the string ends,
provided the string does not end in a newline. -/
theorem split_newline_last (s : List Char)
    (h : ∀ c, s.getLast? = some c → c ≠ '\n') :
    ∃ ll, (split_newline s).getLast? = some ll ∧ ll.getLast? = s.getLast? := by
  induction s with
  | nil => exact ⟨[], rfl, rfl⟩
  | cons c rest ih =>
    cases rest with
    | nil =>
      have hc : c ≠ '\n' := h c (by simp)
      refine ⟨[c], ?_, by simp⟩
      simp [split_newline, hc]
    | cons r rs =>
      have hrest : ∀ d, (r :: rs).getLast? = some d → d ≠ '\n' := by
        intro d hd
        refine h d ?_
        rw [getLast?_cons_of_ne c (r :: rs) (by simp)]
        exact hd
      obtain ⟨ll, hll, hlast⟩ := ih hrest
      by_cases hc : c = '\n'
      · refine ⟨ll, ?_, ?_⟩
        · have hsplit : split_newline (c :: r :: rs) =
              [] :: split_newline (r :: rs) := by
            simp [split_newline, hc]
          rw [hsplit, getLast?_cons_of_ne _ _ (split_newline_ne_nil (r :: rs))]
          exact hll
        · rw [getLast?_cons_of_ne c (r :: rs) (by simp)]
          exact hlast
      · cases hsp : split_newline (r :: rs) with
        | nil => exact absurd hsp (split_newline_ne_nil (r :: rs))
        | cons line ls =>
          have hsplit : split_newline (c :: r :: rs) = (c :: line) :: ls := by
            show (if c = '\n' then [] :: split_newline (r :: rs)
              else match split_newline (r :: rs) with
                | [] => [[c]]
                | line :: lines => (c :: line) :: lines) = (c :: line) :: ls
            rw [if_neg hc, hsp]
          cases ls with
          | nil =>
            have hlleq : some line = some ll := by
              rw [← hll, hsp]
              rfl
            have hlleq' : ll = line := by
              cases hlleq
              rfl
            subst hlleq'
            have hlne : ll ≠ [] := by
              intro h0
              rw [h0] at hlast
              have : (r :: rs).getLast? = none := hlast.symm
              rw [List.getLast?_eq_none_iff] at this
              exact List.cons_ne_nil r rs this
            refine ⟨c :: ll, ?_, ?_⟩
            · rw [hsplit]
              rfl
            · rw [getLast?_cons_of_ne c ll hlne, hlast,
                getLast?_cons_of_ne c (r :: rs) (by simp)]
          | cons l2 ls2 =>
            refine ⟨ll, ?_, ?_⟩
            · rw [hsplit, List.getLast?_cons_cons]
              rw [hsp, List.getLast?_cons_cons] at hll
              exact hll
            · rw [getLast?_cons_of_ne c (r :: rs) (by simp)]
              exact hlast

/-- The first element surviving `dropWhile` falsifies the predicate. -/
theorem head?_dropWhile {α : Type*} (p : α → Bool) (l : List α) (a : α)
    (h : (l.dropWhile p).head? = some a) : p a = false := by
  have hspec := List.head?_dropWhile_not p l
  rw [h] at hspec
  exact hspec

/-- `rust_trim` output never ends in whitespace. -/
theorem rust_trim_getLast (s : List Char) (c : Char)
    (h : (rust_trim s).getLast? = some c) : is_whitespace c = false := by
  unfold rust_trim at h
  rw [List.getLast?_reverse] at h
  exact head?_dropWhile is_whitespace _ c h

/-- The trimmed journal contents never end in whitespace. -/
theorem journal_content_getLast (files : Files) (p : PathBuf) (c : Char)
    (h : (journal_content files p).getLast? = some c) :
    is_whitespace c = false := by
  unfold journal_content at h
  cases hr : files.read_to_string (p.push "namejournal") with
  | some s =>
    rw [hr] at h
    exact rust_trim_getLast s c h
  | none =>
    rw [hr] at h
    exact Option.noConfusion h

/-- `get_hg_commit_name` is the last journal line, with `[]` as the
(unreachable) default. -/
theorem get_hg_commit_name_eq (files : Files) (p : PathBuf) :
    get_hg_commit_name files p = ((journal_lines files p).getLast?).getD [] := by
  unfold get_hg_commit_name
  cases h : (journal_lines files p).getLast? with
  | some line => rfl
  | none => rfl

/-- The commit name returned from the journal never ends in whitespace. -/
theorem get_hg_commit_name_no_trailing (files : Files) (p : PathBuf) (c : Char)
    (h : (get_hg_commit_name files p).getLast? = some c) :
    is_whitespace c = false := by
  have hnl : ∀ d, (journal_content files p).getLast? = some d → d ≠ '\n' := by
    intro d hd he
    subst he
    have hws := journal_content_getLast files p '\n' hd
    simp [is_whitespace] at hws
  obtain ⟨ll, hll, hlast⟩ := split_newline_last (journal_content files p) hnl
  have hname : get_hg_commit_name files p = ll := by
    unfold get_hg_commit_name journal_lines
    rw [hll]
  rw [hname, hlast] at h
  exact journal_content_getLast files p c h

/-! The claims about the resolver. -/

/-- Claim C4: when `bookmarks.current` is readable, resolve returns its
trimmed contents, and the journal has no effect: any two filesystems
agreeing on that read resolve to the same name. -/
theorem c4_bookmark_priority (files1 files2 : Files) (p : PathBuf) (s : List Char)
    (h1 : files1.read_to_string (p.push "bookmarks.current") = some s)
    (h2 : files2.read_to_string (p.push "bookmarks.current") = some s) :
    resolve_branch_name files1 p = rust_trim s ∧
    resolve_branch_name files1 p = resolve_branch_name files2 p := by
  unfold resolve_branch_name get_hg_current_bookmark
  rw [h1, h2]
  exact ⟨rfl, rfl⟩

/-- Witness for C4 at a concrete input: the journal contents differ but
the resolved name is the trimmed bookmark either way. -/
theorem c4_bookmark_priority_witness :
    resolve_branch_name files_bookmark_only hg_repo_path =
      rust_trim [' ', 'f', 'x', '\n'] ∧
    resolve_branch_name files_bookmark_only hg_repo_path =
      resolve_branch_name files_bookmark_and_journal hg_repo_path :=
  c4_bookmark_priority files_bookmark_only files_bookmark_and_journal
    hg_repo_path [' ', 'f', 'x', '\n'] (by decide) (by decide)

/-- Claim C3 as stated is refuted: with `bookmarks.current` unreadable
and a journal reading `"a\n b"`, resolve returns `" b"` — the last line
still carrying its leading space — not the trimmed last line `"b"`. -/
theorem c3_counterexample :
    resolve_branch_name files_journal_indent hg_repo_path = [' ', 'b'] ∧
    rust_trim [' ', 'b'] = ['b'] ∧
    resolve_branch_name files_journal_indent hg_repo_path ≠
      rust_trim [' ', 'b'] := by
  decide

/-- Claim C3 amended: when `bookmarks.current` cannot be read, resolve
falls back to the journal and returns the last newline-separated line of
the journal contents trimmed as a whole (the empty string when the
journal is unreadable); the result never has trailing whitespace, but it
may retain leading whitespace, because only the whole contents — not the
selected line — are trimmed. -/
theorem c3_journal_fallback (files : Files) (p : PathBuf)
    (hb : files.read_to_string (p.push "bookmarks.current") = none) :
    resolve_branch_name files p = get_hg_commit_name files p ∧
    (∀ j, files.read_to_string (p.push "namejournal") = some j →
      get_hg_commit_name files p =
        ((split_newline (rust_trim j)).getLast?).getD []) ∧
    (files.read_to_string (p.push "namejournal") = none →
      get_hg_commit_name files p = []) ∧
    (∀ c, (get_hg_commit_name files p).getLast? = some c →
      is_whitespace c = false) := by
  refine ⟨?_, ?_, ?_, fun c h => get_hg_commit_name_no_trailing files p c h⟩
  · unfold resolve_branch_name get_hg_current_bookmark
    rw [hb]
    rfl
  · intro j hj
    rw [get_hg_commit_name_eq]
    unfold journal_lines journal_content
    rw [hj]
  · intro hj
    rw [get_hg_commit_name_eq]
    unfold journal_lines journal_content
    rw [hj]
    rfl

/-- Witness for the amended C3 at a concrete input. -/
theorem c3_journal_fallback_witness :
    resolve_branch_name files_journal_indent hg_repo_path =
      get_hg_commit_name files_journal_indent hg_repo_path ∧
    get_hg_commit_name files_journal_indent hg_repo_path =
      ((split_newline (rust_trim ['a', '\n', ' ', 'b'])).getLast?).getD [] := by
  have h := c3_journal_fallback files_journal_indent hg_repo_path (by decide)
  exact ⟨h.1, h.2.1 ['a', '\n', ' ', 'b'] (by decide)⟩

/-- Claim C10: splitting the journal on newline always yields at least
one line, so the no-last-line branch of `get_hg_commit_name` is
unreachable; the function is total, agrees with taking the last line, and
returns the empty string when the journal read fails. -/
theorem c10_journal_total (files : Files) (p : PathBuf) :
    journal_lines files p ≠ [] ∧
    get_hg_commit_name files p = ((journal_lines files p).getLast?).getD [] ∧
    (files.read_to_string (p.push "namejournal") = none →
      get_hg_commit_name files p = []) := by
  refine ⟨split_newline_ne_nil (journal_content files p),
    get_hg_commit_name_eq files p, ?_⟩
  intro hj
  rw [get_hg_commit_name_eq]
  unfold journal_lines journal_content
  rw [hj]
  rfl

/-- Witness for C10 at a concrete input. -/
theorem c10_journal_total_witness :
    journal_lines files_absent hg_repo_path ≠ [] ∧
    get_hg_commit_name files_absent hg_repo_path = [] := by
  have h := c10_journal_total files_absent hg_repo_path
  exact ⟨h.1, h.2.2 rfl⟩

end HgBranch
